import Mathlib

/-!
Shallow embedding of the tic-tac-toe game core from `src/index.js`.

The React presentation layer is out of scope; we model the game-state
machine carried in `Game.state` (`history`, `stepNumber`, `xIsNext`),
the mutators `handleClick` and `jumpTo`, the win detector
`calculateWinner`, and the status string computed in `Game.render`
(abstracted to a `Status` value).

JS conventions captured here:
- a cell holds `'X'`, `'O'` or `null`; reading past the end of a JS
  array yields `undefined`; both `null` and `undefined` are falsy and
  compare unequal to `'X'`/`'O'`, so both are modelled as `Cell.empty`
  and reads use `List.getD _ _ Cell.empty`;
- assigning `squares[i] = v` on an array shorter than `i + 1` extends
  the array with holes (which read back as `undefined`, i.e. empty);
  `setSquare` reproduces this;
- `if (calculateWinner(squares) || squares[i])` tests truthiness, i.e.
  "winner is not null OR the cell is not empty".
-/

namespace TicTacToe

inductive Cell where
  | empty
  | X
  | O
deriving DecidableEq

abbrev Board := List Cell

/-- `Array(9).fill(null)` — the all-empty board. -/
def emptyBoard : Board := List.replicate 9 Cell.empty

/-- The 8 winning lines, in the exact order listed in `calculateWinner`. -/
def lines : List (Nat × Nat × Nat) :=
  [(0, 1, 2), (3, 4, 5), (6, 7, 8), (0, 3, 6), (1, 4, 7), (2, 5, 8), (0, 4, 8), (2, 4, 6)]

/-- JS array read `squares[i]`: `null` and out-of-bounds `undefined` are both empty. -/
def cellAt (squares : Board) (i : Nat) : Cell := squares.getD i Cell.empty

/-- The loop body test `squares[a] && squares[a] === squares[b] && squares[a] === squares[c]`. -/
def lineWins (squares : Board) (l : Nat × Nat × Nat) : Bool :=
  cellAt squares l.1 != Cell.empty
    && cellAt squares l.1 == cellAt squares l.2.1
    && cellAt squares l.1 == cellAt squares l.2.2

/-- The `for` loop of `calculateWinner`: return on the first matching line. -/
def calculateWinnerAux (squares : Board) : List (Nat × Nat × Nat) → Cell
  | [] => Cell.empty
  | l :: rest =>
    if lineWins squares l then cellAt squares l.1 else calculateWinnerAux squares rest

/-- `calculateWinner(squares)`: `null` result is modelled as `Cell.empty`. -/
def calculateWinner (squares : Board) : Cell := calculateWinnerAux squares lines

/-- JS array write `squares[i] = v`: in-range writes replace, out-of-range
writes extend the array with empty holes up to index `i`. -/
def setSquare (squares : Board) (i : Nat) (v : Cell) : Board :=
  if i < squares.length then squares.set i v
  else squares ++ List.replicate (i - squares.length) Cell.empty ++ [v]

/-- `Game.state`: `history` (each entry is the `squares` array of a
snapshot), `stepNumber`, and the stored turn flag `xIsNext`. -/
structure GameState where
  history : List Board
  stepNumber : Nat
  xIsNext : Bool
deriving DecidableEq

/-- The state installed by `Game.constructor`. -/
def initState : GameState :=
  { history := [emptyBoard], stepNumber := 0, xIsNext := true }

/-- `Game.handleClick(i)`: truncate history to `stepNumber + 1` entries,
take the last snapshot, no-op when there is a winner or the cell is
occupied, otherwise write the current mark and append the new snapshot. -/
def handleClick (s : GameState) (i : Nat) : GameState :=
  let history := s.history.take (s.stepNumber + 1)
  let current := history.getD (history.length - 1) []
  let squares := current
  if calculateWinner squares ≠ Cell.empty ∨ cellAt squares i ≠ Cell.empty then s
  else
    let squares2 := setSquare squares i (if s.xIsNext then Cell.X else Cell.O)
    { history := history ++ [squares2]
      stepNumber := history.length
      xIsNext := !s.xIsNext }

/-- `Game.jumpTo(step)`: sets `stepNumber` and recomputes `xIsNext` from
parity; performs no range check and leaves `history` alone. -/
def jumpTo (s : GameState) (step : Nat) : GameState :=
  { s with stepNumber := step, xIsNext := step % 2 == 0 }

/-- `Game.render`'s `current = history[this.state.stepNumber]`. -/
def currentBoard (s : GameState) : Board := s.history.getD s.stepNumber []

/-- The status line of `Game.render`, abstracted from its string form:
`winner + ' wins!!!'` becomes `Won winner`, and
`(xIsNext ? 'X' : 'O') + "'s turn!"` becomes `InProgress mark`. -/
inductive Status where
  | Won (m : Cell)
  | InProgress (m : Cell)
deriving DecidableEq

/-- The status computation in `Game.render`. -/
def status (s : GameState) : Status :=
  if calculateWinner (currentBoard s) ≠ Cell.empty then
    Status.Won (calculateWinner (currentBoard s))
  else
    Status.InProgress (if s.xIsNext then Cell.X else Cell.O)

/-- States reachable from the initial state through the UI: clicks on
board cells `0..8` and jumps to steps that the move list can show
(indices of existing history entries). -/
inductive Reachable : GameState → Prop where
  | init : Reachable initState
  | move (s : GameState) (i : Nat) (hi : i ≤ 8) (hs : Reachable s) :
      Reachable (handleClick s i)
  | jump (s : GameState) (step : Nat) (hstep : step < s.history.length) (hs : Reachable s) :
      Reachable (jumpTo s step)

/-! ### Helper lemmas about list access, `setSquare` and `handleClick` -/

theorem cellAt_eq_getElem? (squares : Board) (i : Nat) :
    cellAt squares i = (squares[i]?).getD Cell.empty := by
  simp [cellAt, List.getD_eq_getElem?_getD]

theorem getD_take_of_le {l : List Board} {j k : Nat} (h : j ≤ k) :
    (l.take (k + 1)).getD j [] = l.getD j [] := by
  simp [List.getD_eq_getElem?_getD, List.getElem?_take_of_lt (by omega : j < k + 1)]

theorem length_take_of_lt {l : List Board} {k : Nat} (h : k < l.length) :
    (l.take (k + 1)).length = k + 1 := by
  simp [List.length_take]
  omega

theorem getD_append_left {l₁ l₂ : List Board} {j : Nat} (h : j < l₁.length) :
    (l₁ ++ l₂).getD j [] = l₁.getD j [] := by
  simp [List.getD_eq_getElem?_getD, List.getElem?_append_left h]

theorem getD_append_singleton {l : List Board} {b : Board} :
    (l ++ [b]).getD l.length [] = b := by
  simp [List.getD_eq_getElem?_getD, List.getElem?_append_right (Nat.le_refl l.length)]

theorem cellAt_setSquare_self (squares : Board) (i : Nat) (v : Cell) :
    cellAt (setSquare squares i v) i = v := by
  by_cases h : i < squares.length
  · simp [setSquare, h, cellAt_eq_getElem?, List.getElem?_set_self h]
  · have h9 : squares.length ≤ i := Nat.le_of_not_lt h
    have hlen2 : (squares ++ List.replicate (i - squares.length) Cell.empty).length = i := by
      simp
      omega
    simp only [setSquare, if_neg h]
    rw [cellAt_eq_getElem?, List.getElem?_append_right (Nat.le_of_eq hlen2)]
    simp [hlen2]

theorem cellAt_setSquare_ne_of_lt (squares : Board) {i : Nat} (v : Cell) {p : Nat}
    (hp : p ≠ i) (hi : i < squares.length) :
    cellAt (setSquare squares i v) p = cellAt squares p := by
  simp [setSquare, hi, cellAt_eq_getElem?, List.getElem?_set_ne (fun h => hp h.symm)]

theorem cellAt_setSquare_left (squares : Board) {i : Nat} (v : Cell) {p : Nat}
    (hp : p < squares.length) (hi : squares.length ≤ i) :
    cellAt (setSquare squares i v) p = cellAt squares p := by
  have hp2 : p < (squares ++ List.replicate (i - squares.length) Cell.empty).length := by
    simp
    omega
  simp only [setSquare, if_neg (Nat.not_lt.mpr hi)]
  rw [cellAt_eq_getElem?, List.getElem?_append_left hp2, List.getElem?_append_left hp,
    ← cellAt_eq_getElem?]

theorem length_setSquare_of_lt {squares : Board} {i : Nat} (v : Cell)
    (h : i < squares.length) :
    (setSquare squares i v).length = squares.length := by
  simp [setSquare, h]

theorem currentBoard_mem {s : GameState} (h : s.stepNumber < s.history.length) :
    currentBoard s ∈ s.history := by
  have : s.history[s.stepNumber]? = some s.history[s.stepNumber] :=
    List.getElem?_eq_getElem h
  rw [currentBoard, List.getD_eq_getElem?_getD, this]
  exact List.getElem_mem h

/-- On a state whose pointer indexes a real snapshot, `handleClick`
reads the snapshot at `stepNumber` and either no-ops or truncates,
writes the current mark, and appends. -/
theorem handleClick_eq (s : GameState) (i : Nat) (hlt : s.stepNumber < s.history.length) :
    handleClick s i =
      if calculateWinner (currentBoard s) ≠ Cell.empty ∨ cellAt (currentBoard s) i ≠ Cell.empty
      then s
      else
        { history := s.history.take (s.stepNumber + 1) ++
            [setSquare (currentBoard s) i (if s.xIsNext then Cell.X else Cell.O)]
          stepNumber := s.stepNumber + 1
          xIsNext := !s.xIsNext } := by
  have hlen : (s.history.take (s.stepNumber + 1)).length = s.stepNumber + 1 :=
    length_take_of_lt hlt
  simp only [handleClick, hlen, Nat.add_sub_cancel,
    getD_take_of_le (Nat.le_refl s.stepNumber), currentBoard]

theorem handleClick_reject (s : GameState) (i : Nat)
    (hlt : s.stepNumber < s.history.length)
    (h : calculateWinner (currentBoard s) ≠ Cell.empty ∨ cellAt (currentBoard s) i ≠ Cell.empty) :
    handleClick s i = s := by
  rw [handleClick_eq s i hlt, if_pos h]

theorem handleClick_accept (s : GameState) (i : Nat)
    (hlt : s.stepNumber < s.history.length)
    (hw : calculateWinner (currentBoard s) = Cell.empty)
    (hc : cellAt (currentBoard s) i = Cell.empty) :
    handleClick s i =
      { history := s.history.take (s.stepNumber + 1) ++
          [setSquare (currentBoard s) i (if s.xIsNext then Cell.X else Cell.O)]
        stepNumber := s.stepNumber + 1
        xIsNext := !s.xIsNext } := by
  rw [handleClick_eq s i hlt, if_neg (by simp [hw, hc])]

/-! ### The reachability invariant -/

/-- Invariant maintained by every state reachable through the UI. -/
structure Inv (s : GameState) : Prop where
  lt : s.stepNumber < s.history.length
  flag : s.xIsNext = (s.stepNumber % 2 == 0)
  first : s.history.getD 0 [] = emptyBoard
  len9 : ∀ b ∈ s.history, b.length = 9
  mono : ∀ n m p, n ≤ m → m < s.history.length →
    cellAt (s.history.getD n []) p ≠ Cell.empty →
    cellAt (s.history.getD m []) p = cellAt (s.history.getD n []) p

theorem inv_init : Inv initState := by
  refine ⟨by decide, by decide, rfl, ?_, ?_⟩
  · intro b hb
    simp [initState] at hb
    simp [hb, emptyBoard]
  · intro n m p hnm hm hne
    have hm0 : m = 0 := by
      simp [initState] at hm
      omega
    have hn0 : n = 0 := by omega
    rw [hm0, hn0]

theorem inv_jump (s : GameState) (step : Nat) (h : Inv s)
    (hstep : step < s.history.length) : Inv (jumpTo s step) :=
  ⟨hstep, rfl, h.first, h.len9, h.mono⟩

theorem flag_flip (k : Nat) : (!(k % 2 == 0)) = ((k + 1) % 2 == 0) := by
  rcases Nat.mod_two_eq_zero_or_one k with hk | hk <;>
    simp [Nat.add_mod, hk]

theorem inv_move (s : GameState) (i : Nat) (hi : i ≤ 8) (h : Inv s) :
    Inv (handleClick s i) := by
  rw [handleClick_eq s i h.lt]
  by_cases hrej :
      calculateWinner (currentBoard s) ≠ Cell.empty ∨ cellAt (currentBoard s) i ≠ Cell.empty
  · rw [if_pos hrej]
    exact h
  rw [if_neg hrej]
  push_neg at hrej
  obtain ⟨hw, hc⟩ := hrej
  have hslt : s.stepNumber < s.history.length := h.lt
  have hcur9 : (currentBoard s).length = 9 := h.len9 _ (currentBoard_mem h.lt)
  have hi9 : i < (currentBoard s).length := by omega
  have hlen : (s.history.take (s.stepNumber + 1)).length = s.stepNumber + 1 :=
    length_take_of_lt h.lt
  set b2 := setSquare (currentBoard s) i (if s.xIsNext then Cell.X else Cell.O) with hb2
  have gA : ∀ j, j ≤ s.stepNumber →
      (s.history.take (s.stepNumber + 1) ++ [b2]).getD j [] = s.history.getD j [] := by
    intro j hj
    rw [getD_append_left (by omega), getD_take_of_le hj]
  have gB : (s.history.take (s.stepNumber + 1) ++ [b2]).getD (s.stepNumber + 1) [] = b2 := by
    have := getD_append_singleton (l := s.history.take (s.stepNumber + 1)) (b := b2)
    rwa [hlen] at this
  refine ⟨?_, ?_, ?_, ?_, ?_⟩
  · simp only [List.length_append, List.length_singleton, hlen]
    omega
  · simp only
    rw [h.flag, flag_flip]
  · simp only
    rw [gA 0 (Nat.zero_le _)]
    exact h.first
  · intro b hb
    simp only [List.mem_append, List.mem_singleton] at hb
    rcases hb with hb | hb
    · exact h.len9 b (List.mem_of_mem_take hb)
    · rw [hb, hb2, length_setSquare_of_lt _ hi9, hcur9]
  · intro n m p hnm hm hne
    simp only [List.length_append, hlen, List.length_singleton] at hm
    simp only at hne ⊢
    by_cases hmk : m ≤ s.stepNumber
    · rw [gA n (by omega)] at hne
      rw [gA m hmk, gA n (by omega)]
      exact h.mono n m p hnm (by omega) hne
    have hm1 : m = s.stepNumber + 1 := by omega
    subst hm1
    by_cases hnk : n ≤ s.stepNumber
    · rw [gA n hnk] at hne
      rw [gB, gA n hnk]
      have hkn : cellAt (s.history.getD s.stepNumber []) p = cellAt (s.history.getD n []) p :=
        h.mono n s.stepNumber p hnk h.lt hne
      by_cases hp : p = i
      · exfalso
        subst hp
        apply hne
        rw [← hkn]
        exact hc
      · rw [hb2, cellAt_setSquare_ne_of_lt _ _ hp hi9]
        exact hkn
    · have hn1 : n = s.stepNumber + 1 := by omega
      rw [hn1]

theorem reachable_inv {s : GameState} (h : Reachable s) : Inv s := by
  induction h with
  | init => exact inv_init
  | move s i hi hs ih => exact inv_move s i hi ih
  | jump s step hstep hs ih => exact inv_jump s step ih hstep

/-! ### Further helper lemmas used by the claims -/

theorem lineWins_fst_ne {squares : Board} {l : Nat × Nat × Nat} (h : lineWins squares l) :
    cellAt squares l.1 ≠ Cell.empty := by
  simp only [lineWins, Bool.and_eq_true, bne_iff_ne, ne_eq] at h
  exact h.1.1

theorem calculateWinnerAux_eq_find? (squares : Board) (ls : List (Nat × Nat × Nat)) :
    calculateWinnerAux squares ls =
      (match ls.find? (lineWins squares) with
       | some l => cellAt squares l.1
       | none => Cell.empty) := by
  induction ls with
  | nil => rfl
  | cons l rest ih =>
    by_cases hl : lineWins squares l
    · simp [calculateWinnerAux, hl, List.find?_cons_of_pos _ hl]
    · simp only [calculateWinnerAux, if_neg hl, ih, List.find?_cons_of_neg rest hl]

theorem calculateWinner_eq_find? (squares : Board) :
    calculateWinner squares =
      (match lines.find? (lineWins squares) with
       | some l => cellAt squares l.1
       | none => Cell.empty) :=
  calculateWinnerAux_eq_find? squares lines

theorem mark_parity {s : GameState} (h : Inv s) :
    (if s.xIsNext then Cell.X else Cell.O) =
      (if s.stepNumber % 2 = 0 then Cell.X else Cell.O) := by
  rw [h.flag]
  by_cases hk : s.stepNumber % 2 = 0 <;> simp [hk]

theorem currentBoard_accept (s : GameState) (i : Nat)
    (hlt : s.stepNumber < s.history.length)
    (hw : calculateWinner (currentBoard s) = Cell.empty)
    (hc : cellAt (currentBoard s) i = Cell.empty) :
    currentBoard (handleClick s i) =
      setSquare (currentBoard s) i (if s.xIsNext then Cell.X else Cell.O) := by
  rw [handleClick_accept s i hlt hw hc]
  show (s.history.take (s.stepNumber + 1) ++ [_]).getD (s.stepNumber + 1) [] = _
  have hlen : (s.history.take (s.stepNumber + 1)).length = s.stepNumber + 1 :=
    length_take_of_lt hlt
  have := getD_append_singleton (l := s.history.take (s.stepNumber + 1))
    (b := setSquare (currentBoard s) i (if s.xIsNext then Cell.X else Cell.O))
  rwa [hlen] at this

theorem calculateWinner_emptyBoard : calculateWinner emptyBoard = Cell.empty := by decide

/-! ### The claims -/

/-- Claim C2: `calculateWinner` checks the 8 lines
`[0,1,2],[3,4,5],[6,7,8],[0,3,6],[1,4,7],[2,5,8],[0,4,8],[2,4,6]` in that
fixed order and returns the mark of the first line whose first cell is
non-empty and whose three cells hold the same mark (`List.find?` finds the
first list entry satisfying the test); it returns empty exactly when no
line matches, so with several satisfied lines the first one in the
enumeration wins. -/
theorem calculateWinner_first_match (squares : Board) :
    lines = [(0, 1, 2), (3, 4, 5), (6, 7, 8), (0, 3, 6), (1, 4, 7), (2, 5, 8),
      (0, 4, 8), (2, 4, 6)] ∧
    calculateWinner squares =
      (match lines.find? (lineWins squares) with
       | some l => cellAt squares l.1
       | none => Cell.empty) ∧
    (calculateWinner squares = Cell.empty ↔ ∀ l ∈ lines, ¬ lineWins squares l) := by
  refine ⟨rfl, calculateWinner_eq_find? squares, ?_, ?_⟩
  · intro he l hl hwl
    have hsome : (lines.find? (lineWins squares)).isSome := by
      rw [List.find?_isSome]
      exact ⟨l, hl, hwl⟩
    obtain ⟨l', hl'⟩ := Option.isSome_iff_exists.mp hsome
    have hwl' : lineWins squares l' := List.find?_some hl'
    rw [calculateWinner_eq_find? squares, hl'] at he
    exact lineWins_fst_ne hwl' he
  · intro hall
    rw [calculateWinner_eq_find? squares,
      List.find?_eq_none.mpr (by simpa using hall)]

/-- Claim C2 witness: on a malformed board where lines `[0,1,2]`, `[3,4,5]`
and `[6,7,8]` are all satisfied, the winner is the mark of the first. -/
theorem calculateWinner_first_match_witness :
    calculateWinner
      [Cell.X, Cell.X, Cell.X, Cell.X, Cell.X, Cell.X, Cell.O, Cell.O, Cell.O] = Cell.X :=
  (calculateWinner_first_match
    [Cell.X, Cell.X, Cell.X, Cell.X, Cell.X, Cell.X, Cell.O, Cell.O, Cell.O]).2.1.trans
    (by decide)

/-- Claim C3: on a reachable state, a click on a cell of the current board
that is occupied, or any click when the current board already has a
winner, is a no-op: the entire state — history (hence its length) and
step pointer — is returned unchanged. -/
theorem applyMove_rejected_no_change (s : GameState) (i : Nat) (hr : Reachable s)
    (_hi : i ≤ 8)
    (h : calculateWinner (currentBoard s) ≠ Cell.empty ∨ cellAt (currentBoard s) i ≠ Cell.empty) :
    handleClick s i = s :=
  handleClick_reject s i (reachable_inv hr).lt h

/-- Claim C3 witness: clicking cell 4 twice — the second click hits an
occupied cell and changes nothing. -/
theorem applyMove_rejected_no_change_witness :
    (4 : Nat) ≤ 8 ∧ handleClick (handleClick initState 4) 4 = handleClick initState 4 :=
  ⟨by decide,
    applyMove_rejected_no_change (handleClick initState 4) 4
      (Reachable.move initState 4 (by decide) Reachable.init) (by decide)
      (Or.inr (by decide))⟩

/-- Claim C4 counterexample: from the initial state (history length 1),
`jumpTo 1` — one past the end — is silently accepted: no error is
reported and `stepNumber` moves to the out-of-range value 1 instead of
staying unchanged, contradicting the claim. -/
theorem jumpTo_out_of_range_accepted :
    initState.history.length = 1 ∧
    (jumpTo initState 1).stepNumber = 1 ∧
    (jumpTo initState 1).stepNumber ≠ initState.stepNumber := by decide

/-- Claim C4 amended: `jumpTo` performs no range validation at all — for
every state and every step, in range or not, it sets `stepNumber` to the
given step, recomputes the turn flag from the step's parity, and leaves
the history unchanged; no `OutOfRange` error exists in the code. -/
theorem jumpTo_no_validation (s : GameState) (step : Nat) :
    (jumpTo s step).history = s.history ∧
    (jumpTo s step).stepNumber = step ∧
    (jumpTo s step).xIsNext = (step % 2 == 0) :=
  ⟨rfl, rfl, rfl⟩

/-- Claim C1: an accepted click on a reachable state truncates the
history to its first `stepNumber + 1` entries, appends a copy of the
current board with cell `i` set to X when `stepNumber` is even and O
otherwise, and moves `stepNumber` to the new last index; in particular
a move accepted right after an in-range `jumpTo step` with
`step < history.length - 1` leaves `history.length = step + 2`. -/
theorem applyMove_truncate_append (s : GameState) (i : Nat) (hr : Reachable s)
    (_hi : i ≤ 8)
    (hw : calculateWinner (currentBoard s) = Cell.empty)
    (hc : cellAt (currentBoard s) i = Cell.empty) :
    (handleClick s i).history =
        s.history.take (s.stepNumber + 1) ++
          [setSquare (currentBoard s) i (if s.stepNumber % 2 = 0 then Cell.X else Cell.O)] ∧
    (handleClick s i).history.length = s.stepNumber + 2 ∧
    (handleClick s i).stepNumber = (handleClick s i).history.length - 1 ∧
    (∀ step, step < s.history.length - 1 →
      calculateWinner (currentBoard (jumpTo s step)) = Cell.empty →
      cellAt (currentBoard (jumpTo s step)) i = Cell.empty →
      (handleClick (jumpTo s step) i).history.length = step + 2) := by
  have hinv := reachable_inv hr
  have hacc := handleClick_accept s i hinv.lt hw hc
  have hlen : (s.history.take (s.stepNumber + 1)).length = s.stepNumber + 1 :=
    length_take_of_lt hinv.lt
  refine ⟨?_, ?_, ?_, ?_⟩
  · rw [hacc, ← mark_parity hinv]
  · rw [hacc]
    simp only [List.length_append, hlen, List.length_singleton]
  · rw [hacc]
    simp only [List.length_append, hlen, List.length_singleton]
    omega
  · intro step hstep hw2 hc2
    have hslt := hinv.lt
    have hlt2 : step < s.history.length := by omega
    rw [handleClick_accept (jumpTo s step) i hlt2 hw2 hc2]
    simp only [List.length_append, List.length_singleton]
    show (s.history.take (step + 1)).length + 1 = step + 2
    rw [length_take_of_lt hlt2]

/-- Claim C1 witness: the first move, at cell 4 of the empty board. -/
theorem applyMove_truncate_append_witness :
    calculateWinner (currentBoard initState) = Cell.empty ∧
    (handleClick initState 4).history.length = initState.stepNumber + 2 :=
  ⟨by decide,
    (applyMove_truncate_append initState 4 Reachable.init (by decide) (by decide)
      (by decide)).2.1⟩

/-- Claim C5: an in-range `jumpTo` on a reachable state sets the step
pointer, leaves the history untouched, and the side to move after the
jump is X for an even step and O for an odd one; jumping to step 0 shows
the all-empty board and reports `InProgress` with X to move. -/
theorem jumpTo_in_range (s : GameState) (step : Nat) (hr : Reachable s)
    (hstep : step ≤ s.history.length - 1) :
    (jumpTo s step).stepNumber = step ∧
    (jumpTo s step).history = s.history ∧
    ((if (jumpTo s step).xIsNext then Cell.X else Cell.O) =
      if step % 2 = 0 then Cell.X else Cell.O) ∧
    (step = 0 →
      currentBoard (jumpTo s step) = emptyBoard ∧
      status (jumpTo s step) = Status.InProgress Cell.X) := by
  have hinv := reachable_inv hr
  refine ⟨rfl, rfl, ?_, ?_⟩
  · show (if (step % 2 == 0 : Bool) then Cell.X else Cell.O) = _
    by_cases hk : step % 2 = 0 <;> simp [hk]
  · intro h0
    subst h0
    have hcb : currentBoard (jumpTo s 0) = emptyBoard := hinv.first
    refine ⟨hcb, ?_⟩
    simp only [status, hcb, calculateWinner_emptyBoard, ne_eq, not_true_eq_false,
      if_false]
    rfl

/-- Claim C5 witness: after one move, jumping to step 0 restores the
empty board and X to move. -/
theorem jumpTo_in_range_witness :
    (0 : Nat) ≤ (handleClick initState 4).history.length - 1 ∧
    status (jumpTo (handleClick initState 4) 0) = Status.InProgress Cell.X :=
  ⟨by decide,
    ((jumpTo_in_range (handleClick initState 4) 0
      (Reachable.move initState 4 (by decide) Reachable.init) (by decide)).2.2.2 rfl).2⟩

/-- Claim C6: on a reachable state the rendered status is `Won m` when
the win detector reports `m` on the board at the active step, and
otherwise `InProgress` with the mark determined by the parity of the
active step; after one move by X at cell 4 it is `InProgress O`. -/
theorem status_spec (s : GameState) (hr : Reachable s) :
    (∀ m, m ≠ Cell.empty → calculateWinner (currentBoard s) = m → status s = Status.Won m) ∧
    (calculateWinner (currentBoard s) = Cell.empty →
      status s = Status.InProgress (if s.stepNumber % 2 = 0 then Cell.X else Cell.O)) ∧
    status (handleClick initState 4) = Status.InProgress Cell.O := by
  have hinv := reachable_inv hr
  refine ⟨?_, ?_, by decide⟩
  · intro m hm hcw
    simp only [status]
    rw [if_pos (by rw [hcw]; exact hm), hcw]
  · intro hcw
    simp only [status]
    rw [if_neg (by rw [hcw]; simp), mark_parity hinv]

/-- Claim C6 witness: the initial state is in progress with X to move. -/
theorem status_spec_witness : status initState = Status.InProgress Cell.X :=
  ((status_spec initState Reachable.init).2.1 (by decide)).trans (by decide)

/-- Claim C7: in every state reachable by clicks and in-range jumps, the
stored turn flag equals the parity of the step pointer, and an accepted
click writes X exactly when the step pointer is even, O when odd. -/
theorem turn_parity (s : GameState) (hr : Reachable s) :
    s.xIsNext = (s.stepNumber % 2 == 0) ∧
    (∀ i, i ≤ 8 → calculateWinner (currentBoard s) = Cell.empty →
      cellAt (currentBoard s) i = Cell.empty →
      cellAt (currentBoard (handleClick s i)) i =
        (if s.stepNumber % 2 = 0 then Cell.X else Cell.O)) := by
  have hinv := reachable_inv hr
  refine ⟨hinv.flag, ?_⟩
  intro i hi hw hc
  rw [currentBoard_accept s i hinv.lt hw hc, cellAt_setSquare_self, mark_parity hinv]

/-- Claim C7 witness: the first move writes X. -/
theorem turn_parity_witness :
    cellAt (currentBoard (handleClick initState 4)) 4 = Cell.X :=
  ((turn_parity initState Reachable.init).2 4 (by decide) (by decide) (by decide)).trans
    (by decide)

/-- Claim C8: in every reachable state the first history entry is the
all-empty board — it is there initially, clicks only keep a non-empty
prefix and append, and jumps never touch the history. -/
theorem history_first_empty (s : GameState) (hr : Reachable s) :
    s.history.getD 0 [] = emptyBoard :=
  (reachable_inv hr).first

/-- Claim C8 witness: still true after a move. -/
theorem history_first_empty_witness :
    (handleClick initState 4).history.getD 0 [] = emptyBoard :=
  history_first_empty (handleClick initState 4)
    (Reachable.move initState 4 (by decide) Reachable.init)

/-- Claim C9: cell occupancy is monotone along the history of a
reachable state — a cell that is non-empty in an earlier snapshot keeps
the same mark in every later snapshot; and an accepted click keeps only
a prefix of the old history and appends one snapshot that differs from
the current board exactly at the clicked cell, which goes from empty to
a mark. -/
theorem history_monotone (s : GameState) (hr : Reachable s) :
    (∀ n m p, n ≤ m → m < s.history.length →
      cellAt (s.history.getD n []) p ≠ Cell.empty →
      cellAt (s.history.getD m []) p = cellAt (s.history.getD n []) p) ∧
    (∀ i, i ≤ 8 → calculateWinner (currentBoard s) = Cell.empty →
      cellAt (currentBoard s) i = Cell.empty →
      (handleClick s i).history =
        s.history.take (s.stepNumber + 1) ++
          [setSquare (currentBoard s) i (if s.xIsNext then Cell.X else Cell.O)] ∧
      (∀ p, p ≠ i →
        cellAt (setSquare (currentBoard s) i (if s.xIsNext then Cell.X else Cell.O)) p =
          cellAt (currentBoard s) p) ∧
      cellAt (setSquare (currentBoard s) i (if s.xIsNext then Cell.X else Cell.O)) i ≠
        Cell.empty) := by
  have hinv := reachable_inv hr
  refine ⟨hinv.mono, ?_⟩
  intro i hi hw hc
  have hi9 : i < (currentBoard s).length := by
    have := hinv.len9 _ (currentBoard_mem hinv.lt)
    omega
  refine ⟨?_, ?_, ?_⟩
  · rw [handleClick_accept s i hinv.lt hw hc]
  · intro p hp
    exact cellAt_setSquare_ne_of_lt _ _ hp hi9
  · rw [cellAt_setSquare_self]
    by_cases hx : s.xIsNext <;> simp [hx]

/-- Claim C9 witness: after X plays cell 0 and O plays cell 1, the mark
placed at cell 0 in snapshot 1 is still there in snapshot 2. -/
theorem history_monotone_witness :
    cellAt ((handleClick (handleClick initState 0) 1).history.getD 2 []) 0 =
      cellAt ((handleClick (handleClick initState 0) 1).history.getD 1 []) 0 :=
  (history_monotone (handleClick (handleClick initState 0) 1)
    (Reachable.move _ 1 (by decide) (Reachable.move _ 0 (by decide) Reachable.init))).1
    1 2 0 (by decide) (by decide) (by decide)

/-- Claim C10: `handleClick` never validates its cell index — on a
reachable state with no winner at the active step, a click outside the
board (index ≥ 9, modelling the JS out-of-bounds write) is accepted:
the out-of-range cell reads as empty, the step pointer advances, a
snapshot is appended (growing the history by one when the state was at
the last step), its nine on-board cells equal those of the previous
snapshot, and the current player's mark sits at the out-of-range
position. -/
theorem applyMove_unvalidated_index (s : GameState) (i : Nat) (hr : Reachable s)
    (hi : 9 ≤ i) (hw : calculateWinner (currentBoard s) = Cell.empty) :
    cellAt (currentBoard s) i = Cell.empty ∧
    (handleClick s i).stepNumber = s.stepNumber + 1 ∧
    (handleClick s i).history.length = s.stepNumber + 2 ∧
    (s.stepNumber = s.history.length - 1 →
      (handleClick s i).history.length = s.history.length + 1) ∧
    (∀ p, p ≤ 8 → cellAt (currentBoard (handleClick s i)) p = cellAt (currentBoard s) p) ∧
    cellAt (currentBoard (handleClick s i)) i = (if s.xIsNext then Cell.X else Cell.O) := by
  have hinv := reachable_inv hr
  have hslt := hinv.lt
  have hcur9 : (currentBoard s).length = 9 := hinv.len9 _ (currentBoard_mem hinv.lt)
  have hc : cellAt (currentBoard s) i = Cell.empty := by
    rw [cellAt_eq_getElem?, List.getElem?_eq_none (by omega)]
    rfl
  have hacc := handleClick_accept s i hinv.lt hw hc
  have hlen : (s.history.take (s.stepNumber + 1)).length = s.stepNumber + 1 :=
    length_take_of_lt hinv.lt
  refine ⟨hc, ?_, ?_, ?_, ?_, ?_⟩
  · rw [hacc]
  · rw [hacc]
    simp only [List.length_append, hlen, List.length_singleton]
  · intro hend
    rw [hacc]
    simp only [List.length_append, hlen, List.length_singleton]
    omega
  · intro p hp
    rw [currentBoard_accept s i hinv.lt hw hc]
    exact cellAt_setSquare_left _ _ (by omega) (by omega)
  · rw [currentBoard_accept s i hinv.lt hw hc, cellAt_setSquare_self]

/-- Claim C10 witness: clicking index 9 on the initial state is accepted
and stores X past the end of the board. -/
theorem applyMove_unvalidated_index_witness :
    (handleClick initState 9).history.length = initState.stepNumber + 2 ∧
    cellAt (currentBoard (handleClick initState 9)) 9 =
      (if initState.xIsNext then Cell.X else Cell.O) :=
  ⟨(applyMove_unvalidated_index initState 9 Reachable.init (by decide) (by decide)).2.2.1,
    (applyMove_unvalidated_index initState 9 Reachable.init (by decide)
      (by decide)).2.2.2.2.2⟩

end TicTacToe
